import Mathlib

/-!
# Price processor (`src/process.cpp`)

A shallow embedding of the price processor: a window of at most `BUFFER_SIZE`
prices, a running high and a running low, with the five operations
`add_price`, `get_moving_average`, `get_high`, `get_low`, `reset_processor`.

The three file-level variables `price_buffer`, `high_price`, `low_price` become
the fields of `State`, and every operation is a function on `State`.

A C++ `double` is embedded as `Dbl`: NaN, the two infinities, and the finite
values, the latter carried as rationals.  Comparisons follow IEEE 754 (every
ordered comparison with NaN is false, `NaN == x` is false).  Addition and
division follow IEEE 754 binary64 in the default rounding mode: the exact
rational result is rounded to the nearest binary64 value, ties to the even
significand (`round64`), with gradual underflow and with overflow to an
infinity; on the special values they follow IEEE 754 as well.  Every operation
is evaluated in binary64 itself, as on a target without extended intermediate
precision.  Signed zeros are identified, which no comparison in the program
tells apart.  A price `Dbl.fin q` may carry any rational `q`; the binary64
values are those with `Representable q`.
-/

namespace PriceProcessor

/-- Values of the C++ type `double`, with exact finite values. -/
inductive Dbl where
  | nan : Dbl
  | ninf : Dbl
  | fin (q : ℚ) : Dbl
  | pinf : Dbl
  deriving DecidableEq

/-- The integer nearest to a rational, ties to the even integer. -/
def roundHalfEven (x : ℚ) : ℤ :=
  let f := ⌊x⌋
  let r := x - f
  if r < 1 / 2 then f
  else if 1 / 2 < r then f + 1
  else if f % 2 = 0 then f else f + 1

/-- Rounding of an exact result to binary64, round to nearest, ties to even.
For `q` in the binade `2^e <= |q| < 2^(e+1)` the spacing of the binary64 values
is `2^(e-52)`, and `2^(-1074)` below `2^(-1022)` (subnormal range); a rounded
magnitude of `2^1024` or more overflows to the infinity of the sign of `q`. -/
def round64 (q : ℚ) : Dbl :=
  if q = 0 then Dbl.fin 0
  else
    let a := |q|
    let e := max (Int.log 2 a) (-1022)
    let ulp : ℚ := 2 ^ (e - 52)
    let r : ℚ := (roundHalfEven (a / ulp) : ℚ) * ulp
    if (2 : ℚ) ^ (1024 : ℕ) ≤ r then (if 0 < q then Dbl.pinf else Dbl.ninf)
    else Dbl.fin (if 0 < q then r else -r)

namespace Dbl

/-- The operator `<` on doubles. -/
def lt : Dbl → Dbl → Bool
  | ninf, fin _ => true
  | ninf, pinf => true
  | fin a, fin b => decide (a < b)
  | fin _, pinf => true
  | _, _ => false

/-- The operator `>` on doubles. -/
def gt (a b : Dbl) : Bool := lt b a

/-- The operator `==` on doubles. -/
def eq : Dbl → Dbl → Bool
  | ninf, ninf => true
  | fin a, fin b => decide (a = b)
  | pinf, pinf => true
  | _, _ => false

/-- The operator `<=` on doubles. -/
def le (a b : Dbl) : Bool := lt a b || eq a b

/-- The operator `>=` on doubles. -/
def ge (a b : Dbl) : Bool := le b a

/-- The operator `+` on doubles (the exact sum of finite values, rounded). -/
def add : Dbl → Dbl → Dbl
  | nan, _ => nan
  | _, nan => nan
  | pinf, ninf => nan
  | ninf, pinf => nan
  | pinf, _ => pinf
  | _, pinf => pinf
  | ninf, _ => ninf
  | _, ninf => ninf
  | fin a, fin b => round64 (a + b)

/-- The operator `/` with a `size_t` divisor converted to `double` (the exact
quotient of finite values, rounded; a zero divisor follows IEEE 754). -/
def divNat : Dbl → Nat → Dbl
  | nan, _ => nan
  | pinf, _ => pinf
  | ninf, _ => ninf
  | fin q, n =>
    if n = 0 then
      (if 0 < q then pinf else if q < 0 then ninf else nan)
    else round64 (q / (n : ℚ))

/-- Whether the value is a NaN. -/
def isNaN : Dbl → Bool
  | nan => true
  | _ => false

end Dbl

/-- The constant `BUFFER_SIZE`. -/
def BUFFER_SIZE : Nat := 20

/-- The value of `std::numeric_limits<double>::max()`, that is
`(2^53 - 1) * 2^971`. -/
def DBL_MAX : ℚ := (2 ^ 53 - 1) * 2 ^ 971

/-- The file-level variables of `process.cpp`. -/
structure State where
  price_buffer : List Dbl
  high_price : Dbl
  low_price : Dbl
  deriving DecidableEq

/-- The state at process start, from the initialisers of the three variables. -/
def initState : State :=
  { price_buffer := [], high_price := Dbl.fin 0, low_price := Dbl.fin DBL_MAX }

/-- The function `add_price`. -/
def add_price (s : State) (price : Dbl) : State :=
  let high := if Dbl.gt price s.high_price then price else s.high_price
  let low := if Dbl.lt price s.low_price then price else s.low_price
  let buf := if s.price_buffer.length ≥ BUFFER_SIZE then s.price_buffer.eraseIdx 0
             else s.price_buffer
  { price_buffer := buf ++ [price], high_price := high, low_price := low }

/-- The function `get_moving_average`. -/
def get_moving_average (s : State) : Dbl :=
  if s.price_buffer.isEmpty then Dbl.fin 0
  else
    let sum := s.price_buffer.foldl (fun acc p => Dbl.add acc p) (Dbl.fin 0)
    Dbl.divNat sum s.price_buffer.length

/-- The function `get_high`. -/
def get_high (s : State) : Dbl := s.high_price

/-- The function `get_low`. -/
def get_low (s : State) : Dbl :=
  if Dbl.eq s.low_price (Dbl.fin DBL_MAX) then Dbl.fin 0 else s.low_price

/-- The function `reset_processor`. -/
def reset_processor (_s : State) : State :=
  { price_buffer := [], high_price := Dbl.fin 0, low_price := Dbl.fin DBL_MAX }

/-- A run of `add_price` calls, in the order of the list. -/
def add_prices (s : State) (ps : List Dbl) : State :=
  ps.foldl add_price s

/-- The calls that change the state. -/
inductive Op where
  | add (price : Dbl) : Op
  | reset : Op
  deriving DecidableEq

/-- One state-changing call. -/
def step (s : State) : Op → State
  | Op.add p => add_price s p
  | Op.reset => reset_processor s

/-- A run of state-changing calls, in the order of the list. -/
def run (s : State) (ops : List Op) : State :=
  ops.foldl step s

/-- The prices added after the last `reset` of a run (all of them when the
run has no reset), in arrival order: a log that `add` extends and `reset`
empties. -/
def sinceReset (ops : List Op) : List Dbl :=
  ops.foldl (fun log o => match o with
    | Op.add p => log ++ [p]
    | Op.reset => []) []

/-- The last `n` elements of a list, in order. -/
def lastN {α : Type} (n : Nat) (ps : List α) : List α :=
  ps.drop (ps.length - n)

/-- The arithmetic mean of rationals: sum divided by count. -/
def meanQ (qs : List ℚ) : ℚ := qs.sum / (qs.length : ℚ)

/-- A rational is representable when it is a binary64 value, that is when
rounding leaves it unchanged. -/
def Representable (q : ℚ) : Prop := round64 q = Dbl.fin q

/-- Every running sum `q1 + ... + qk` of the list, taken left to right, is
representable. -/
def ExactSums (qs : List ℚ) : Prop :=
  ∀ k, k ≤ qs.length → Representable (qs.take k).sum

/-- A state is fresh when it is the initial one or comes out of a reset. -/
def Fresh (s : State) : Prop := s = initState ∨ ∃ t, s = reset_processor t

/-- The value `m` is the maximum of the prices `ps`: a non-NaN element that
is `>=` every non-NaN element. -/
def IsMaxOf (m : Dbl) (ps : List Dbl) : Prop :=
  m ∈ ps ∧ Dbl.isNaN m = false ∧ ∀ p ∈ ps, Dbl.isNaN p = false → Dbl.ge m p = true

/-- The value `m` is the minimum of the prices `ps`: a non-NaN element that
is `<=` every non-NaN element. -/
def IsMinOf (m : Dbl) (ps : List Dbl) : Prop :=
  m ∈ ps ∧ Dbl.isNaN m = false ∧ ∀ p ∈ ps, Dbl.isNaN p = false → Dbl.le m p = true

/-- The prices `1.0, 2.0, ..., n` as doubles. -/
def upTo (n : Nat) : List Dbl :=
  (List.range n).map (fun i => Dbl.fin ((i : ℚ) + 1))


/-! ## Helper lemmas -/

theorem reset_eq_init (s : State) : reset_processor s = initState := rfl

theorem fresh_eq_init {s : State} (h : Fresh s) : s = initState := by
  rcases h with h | ⟨t, h⟩
  · exact h
  · rw [h, reset_eq_init]

theorem add_prices_snoc (s : State) (ps : List Dbl) (p : Dbl) :
    add_prices s (ps ++ [p]) = add_price (add_prices s ps) p := by
  simp [add_prices, List.foldl_append]

theorem run_snoc (s : State) (ops : List Op) (o : Op) :
    run s (ops ++ [o]) = step (run s ops) o := by
  simp [run, List.foldl_append]

theorem lastN_length {α : Type} (n : Nat) (ps : List α) :
    (lastN n ps).length = min ps.length n := by
  simp only [lastN, List.length_drop]
  omega

theorem lastN_snoc (ps : List Dbl) (p : Dbl) :
    lastN 20 (ps ++ [p]) =
      (if (lastN 20 ps).length ≥ 20 then (lastN 20 ps).eraseIdx 0 else lastN 20 ps) ++ [p] := by
  rw [lastN_length]
  by_cases h : 20 ≤ ps.length
  · have h1 : min ps.length 20 ≥ 20 := by omega
    rw [if_pos h1]
    have h2 : (ps ++ [p]).length - 20 = (ps.length - 20) + 1 := by
      simp only [List.length_append, List.length_singleton]; omega
    have h3 : ps.length - 20 + 1 ≤ ps.length := by omega
    simp only [lastN, h2, List.eraseIdx_zero, List.tail_drop]
    rw [List.drop_append_of_le_length h3]
  · have h1 : ¬ (min ps.length 20 ≥ 20) := by omega
    rw [if_neg h1]
    have h2 : (ps ++ [p]).length - 20 = 0 := by
      simp only [List.length_append, List.length_singleton]; omega
    have h3 : ps.length - 20 = 0 := by omega
    simp only [lastN, h2, h3, List.drop_zero]

theorem window_init (ps : List Dbl) :
    (add_prices initState ps).price_buffer = lastN 20 ps := by
  induction ps using List.reverseRecOn with
  | nil => rfl
  | append_singleton ps p ih =>
    rw [add_prices_snoc, lastN_snoc, ← ih]
    rfl

theorem lt_notNaN_left {a b : Dbl} (h : Dbl.lt a b = true) : Dbl.isNaN a = false := by
  cases a <;> cases b <;> simp_all [Dbl.lt, Dbl.isNaN]

theorem lt_notNaN_right {a b : Dbl} (h : Dbl.lt a b = true) : Dbl.isNaN b = false := by
  cases a <;> cases b <;> simp_all [Dbl.lt, Dbl.isNaN]

theorem dle_refl {a : Dbl} (h : Dbl.isNaN a = false) : Dbl.le a a = true := by
  cases a <;> simp_all [Dbl.le, Dbl.lt, Dbl.eq, Dbl.isNaN]

theorem dle_of_lt {a b : Dbl} (h : Dbl.lt a b = true) : Dbl.le a b = true := by
  simp [Dbl.le, h]

theorem dle_trans {a b c : Dbl} (h1 : Dbl.le a b = true) (h2 : Dbl.le b c = true) :
    Dbl.le a c = true := by
  cases a <;> cases b <;> cases c <;> simp_all [Dbl.le, Dbl.lt, Dbl.eq]
  rename_i x y z
  rcases h1 with h1 | h1 <;> rcases h2 with h2 | h2
  · exact Or.inl (lt_trans h1 h2)
  · exact Or.inl (h2 ▸ h1)
  · exact Or.inl (h1 ▸ h2)
  · exact Or.inr (h1.trans h2)

theorem dle_of_not_lt {a b : Dbl} (ha : Dbl.isNaN a = false) (hb : Dbl.isNaN b = false)
    (h : Dbl.lt b a = false) : Dbl.le a b = true := by
  cases a <;> cases b <;> simp_all [Dbl.le, Dbl.lt, Dbl.eq, Dbl.isNaN]
  exact lt_or_eq_of_le h

theorem dadd_comm (a b : Dbl) : Dbl.add a b = Dbl.add b a := by
  cases a <;> cases b <;> simp [Dbl.add, add_comm]

theorem deq_iff {a b : Dbl} : Dbl.eq a b = true ↔ (a = b ∧ Dbl.isNaN a = false) := by
  cases a <;> cases b <;> simp [Dbl.eq, Dbl.isNaN]

theorem dbl_max_pos : (0 : ℚ) < DBL_MAX := by
  unfold DBL_MAX
  positivity

theorem dlt_of_le_of_lt {a b c : Dbl} (h1 : Dbl.le a b = true) (h2 : Dbl.lt b c = true) :
    Dbl.lt a c = true := by
  cases a <;> cases b <;> cases c <;> simp_all [Dbl.le, Dbl.lt, Dbl.eq]
  rcases h1 with h1 | h1
  · exact lt_trans h1 h2
  · exact h1 ▸ h2

theorem deq_false_of_lt {a b : Dbl} (h : Dbl.lt a b = true) : Dbl.eq a b = false := by
  cases a <;> cases b <;> simp_all [Dbl.lt, Dbl.eq]
  exact ne_of_lt h

theorem sinceReset_snoc_add (ops : List Op) (p : Dbl) :
    sinceReset (ops ++ [Op.add p]) = sinceReset ops ++ [p] := by
  simp [sinceReset, List.foldl_append]

theorem sinceReset_snoc_reset (ops : List Op) :
    sinceReset (ops ++ [Op.reset]) = [] := by
  simp [sinceReset, List.foldl_append]

theorem run_eq_add_prices (ops : List Op) :
    run initState ops = add_prices initState (sinceReset ops) := by
  induction ops using List.reverseRecOn with
  | nil => rfl
  | append_singleton ops o ih =>
    cases o with
    | add p => rw [run_snoc, sinceReset_snoc_add, add_prices_snoc, ← ih]; rfl
    | reset => rw [run_snoc, sinceReset_snoc_reset]; rfl

theorem high_inv (ps : List Dbl) :
    Dbl.isNaN (add_prices initState ps).high_price = false ∧
    ∀ p ∈ ps, Dbl.isNaN p = false →
      Dbl.le p (add_prices initState ps).high_price = true := by
  induction ps using List.reverseRecOn with
  | nil => exact ⟨rfl, fun p hp => absurd hp (List.not_mem_nil p)⟩
  | append_singleton ps x ih =>
    obtain ⟨hn, hle⟩ := ih
    rw [add_prices_snoc]
    simp only [add_price, Dbl.gt]
    by_cases hx : Dbl.lt (add_prices initState ps).high_price x = true
    · rw [if_pos hx]
      refine ⟨lt_notNaN_right hx, fun p hp hpn => ?_⟩
      rcases List.mem_append.mp hp with hp | hp
      · exact dle_trans (hle p hp hpn) (dle_of_lt hx)
      · rw [List.mem_singleton.mp hp]
        exact dle_refl (lt_notNaN_right hx)
    · rw [if_neg hx]
      refine ⟨hn, fun p hp hpn => ?_⟩
      rcases List.mem_append.mp hp with hp | hp
      · exact hle p hp hpn
      · rw [List.mem_singleton.mp hp] at hpn ⊢
        exact dle_of_not_lt hpn hn (by simpa using hx)

theorem low_inv (ps : List Dbl) :
    Dbl.isNaN (add_prices initState ps).low_price = false ∧
    Dbl.le (add_prices initState ps).low_price (Dbl.fin DBL_MAX) = true ∧
    ((add_prices initState ps).low_price = Dbl.fin DBL_MAX ∨
      (add_prices initState ps).low_price ∈ ps) ∧
    ∀ p ∈ ps, Dbl.isNaN p = false →
      Dbl.le (add_prices initState ps).low_price p = true := by
  induction ps using List.reverseRecOn with
  | nil =>
    exact ⟨rfl, dle_refl rfl, Or.inl rfl, fun p hp => absurd hp (List.not_mem_nil p)⟩
  | append_singleton ps x ih =>
    obtain ⟨hn, hmax, hmem, hle⟩ := ih
    rw [add_prices_snoc]
    simp only [add_price]
    by_cases hx : Dbl.lt x (add_prices initState ps).low_price = true
    · rw [if_pos hx]
      refine ⟨lt_notNaN_left hx, dle_trans (dle_of_lt hx) hmax,
        Or.inr (List.mem_append.mpr (Or.inr (List.mem_singleton.mpr rfl))),
        fun p hp hpn => ?_⟩
      rcases List.mem_append.mp hp with hp | hp
      · exact dle_trans (dle_of_lt hx) (hle p hp hpn)
      · rw [List.mem_singleton.mp hp]
        exact dle_refl (lt_notNaN_left hx)
    · rw [if_neg hx]
      refine ⟨hn, hmax, hmem.imp id (fun h => List.mem_append.mpr (Or.inl h)),
        fun p hp hpn => ?_⟩
      rcases List.mem_append.mp hp with hp | hp
      · exact hle p hp hpn
      · rw [List.mem_singleton.mp hp] at hpn ⊢
        exact dle_of_not_lt hn hpn (by simpa using hx)

theorem add_price_fin (buf : List Dbl) (h l p : ℚ) :
    add_price { price_buffer := buf, high_price := Dbl.fin h, low_price := Dbl.fin l } (Dbl.fin p)
      = { price_buffer := (if buf.length ≥ 20 then buf.eraseIdx 0 else buf) ++ [Dbl.fin p],
          high_price := Dbl.fin (if h < p then p else h),
          low_price := Dbl.fin (if p < l then p else l) } := by
  simp only [add_price, Dbl.gt, Dbl.lt, BUFFER_SIZE, decide_eq_true_eq]
  split_ifs <;> rfl

/-! ## Rounding to binary64 -/

theorem floor_unique (x : ℚ) (f : ℤ) (h1 : (f : ℚ) ≤ x) (h2 : x < f + 1) : ⌊x⌋ = f :=
  Int.floor_eq_iff.mpr ⟨h1, h2⟩

theorem roundHalfEven_intCast (n : ℤ) : roundHalfEven (n : ℚ) = n := by
  simp [roundHalfEven]

theorem roundHalfEven_down (x : ℚ) (f : ℤ) (h1 : (f : ℚ) ≤ x) (h2 : x < f + 1 / 2) :
    roundHalfEven x = f := by
  have hf : ⌊x⌋ = f := floor_unique x f h1 (by linarith)
  have hr : x - (f : ℚ) < 1 / 2 := by linarith
  simp only [roundHalfEven, hf, hr, if_true]

theorem round64_zero : round64 0 = Dbl.fin 0 := by
  simp [round64]

theorem round64_scaled (m k : ℤ) (hm : |m| < 2 ^ 53) (hk1 : -1074 ≤ k) (hk2 : k ≤ 971) :
    round64 ((m : ℚ) * (2 : ℚ) ^ k) = Dbl.fin ((m : ℚ) * (2 : ℚ) ^ k) := by
  by_cases hm0 : m = 0
  · simp [hm0, round64_zero]
  have h2k : (0 : ℚ) < (2 : ℚ) ^ k := by positivity
  have hq : (m : ℚ) * (2 : ℚ) ^ k ≠ 0 := by
    apply mul_ne_zero
    · exact_mod_cast hm0
    · exact ne_of_gt h2k
  have habs : |(m : ℚ) * (2 : ℚ) ^ k| = ((|m| : ℤ) : ℚ) * (2 : ℚ) ^ k := by
    rw [abs_mul, abs_of_pos h2k, Int.cast_abs]
  have hapos : 0 < |(m : ℚ) * (2 : ℚ) ^ k| := abs_pos.mpr hq
  have hmq : ((|m| : ℤ) : ℚ) < (2 : ℚ) ^ (53 : ℤ) := by
    have h53 : (2 : ℚ) ^ (53 : ℤ) = (2 : ℚ) ^ (53 : ℕ) := zpow_natCast (2 : ℚ) 53
    rw [h53]
    exact_mod_cast hm
  have hlt : |(m : ℚ) * (2 : ℚ) ^ k| < (2 : ℚ) ^ (53 + k) := by
    rw [habs, zpow_add₀ (by norm_num : (2 : ℚ) ≠ 0)]
    exact mul_lt_mul_of_pos_right hmq h2k
  have hb : 1 < 2 := by norm_num
  have hloglt : Int.log 2 |(m : ℚ) * (2 : ℚ) ^ k| < 53 + k :=
    (Int.lt_zpow_iff_log_lt hb hapos).mp (by exact_mod_cast hlt)
  obtain ⟨J, hJ⟩ : ∃ J : ℕ, (J : ℤ) =
      k - (max (Int.log 2 |(m : ℚ) * (2 : ℚ) ^ k|) (-1022) - 52) :=
    ⟨(k - (max (Int.log 2 |(m : ℚ) * (2 : ℚ) ^ k|) (-1022) - 52)).toNat,
      Int.toNat_of_nonneg (by omega)⟩
  have hdiv : |(m : ℚ) * (2 : ℚ) ^ k|
      / (2 : ℚ) ^ (max (Int.log 2 |(m : ℚ) * (2 : ℚ) ^ k|) (-1022) - 52)
      = ((|m| * 2 ^ J : ℤ) : ℚ) := by
    nth_rewrite 1 [habs]
    rw [mul_div_assoc, ← zpow_sub₀ (by norm_num : (2 : ℚ) ≠ 0), ← hJ]
    push_cast
    rw [zpow_natCast]
  have hback : ((|m| * 2 ^ J : ℤ) : ℚ)
      * (2 : ℚ) ^ (max (Int.log 2 |(m : ℚ) * (2 : ℚ) ^ k|) (-1022) - 52)
      = |(m : ℚ) * (2 : ℚ) ^ k| := by
    rw [← hdiv, div_mul_cancel₀]
    exact ne_of_gt (by positivity)
  have hfin : ¬ ((2 : ℚ) ^ (1024 : ℕ) ≤ |(m : ℚ) * (2 : ℚ) ^ k|) := by
    rw [not_le]
    refine lt_of_lt_of_le hlt ?_
    have h1024 : (2 : ℚ) ^ (1024 : ℤ) = (2 : ℚ) ^ (1024 : ℕ) := zpow_natCast (2 : ℚ) 1024
    rw [← h1024]
    exact zpow_le_zpow_right₀ (by norm_num) (by omega)
  simp only [round64, hq, if_false, hdiv, roundHalfEven_intCast, hback, hfin]
  congr 1
  split_ifs with hpos
  · exact abs_of_pos hpos
  · rw [abs_of_neg (lt_of_le_of_ne (not_lt.mp hpos) hq), neg_neg]

theorem representable_scaled (m k : ℤ) (hm : |m| < 2 ^ 53) (hk1 : -1074 ≤ k) (hk2 : k ≤ 971) :
    Representable ((m : ℚ) * (2 : ℚ) ^ k) :=
  round64_scaled m k hm hk1 hk2

theorem representable_nat (n : ℕ) (h : n < 2 ^ 53) : Representable (n : ℚ) := by
  have hm : |(n : ℤ)| < 2 ^ 53 := by
    rw [abs_of_nonneg (Int.natCast_nonneg n)]
    exact_mod_cast h
  have := representable_scaled (n : ℤ) 0 hm (by norm_num) (by norm_num)
  simpa using this

theorem dadd_fin (a b : ℚ) : Dbl.add (Dbl.fin a) (Dbl.fin b) = round64 (a + b) := rfl

theorem divNat_fin (q : ℚ) (n : Nat) (h : n ≠ 0) :
    Dbl.divNat (Dbl.fin q) n = round64 (q / (n : ℚ)) := by
  simp [Dbl.divNat, h]

theorem foldl_add_exact (qs : List ℚ) (h : ExactSums qs) :
    (qs.map Dbl.fin).foldl (fun acc p => Dbl.add acc p) (Dbl.fin 0) = Dbl.fin qs.sum := by
  induction qs using List.reverseRecOn with
  | nil => rfl
  | append_singleton qs x ih =>
    have hpre : ExactSums qs := by
      intro k hk
      have h1 := h k (by simp only [List.length_append, List.length_singleton]; omega)
      rwa [List.take_append_of_le_length hk] at h1
    have hall := h (qs ++ [x]).length (le_refl _)
    rw [List.take_length] at hall
    rw [List.map_append, List.foldl_append, ih hpre]
    simp only [List.map_cons, List.map_nil, List.foldl_cons, List.foldl_nil, dadd_fin]
    rw [List.sum_append, List.sum_singleton] at hall ⊢
    exact hall

theorem exactSums_nat (ns : List ℕ) (h : ns.sum < 2 ^ 53) :
    ExactSums (ns.map (Nat.cast : ℕ → ℚ)) := by
  intro k _
  have h1 : ((ns.map (Nat.cast : ℕ → ℚ)).take k).sum = (((ns.take k).sum : ℕ) : ℚ) := by
    rw [← List.map_take, Nat.cast_list_sum]
  rw [h1]
  apply representable_nat
  have h2 : (ns.take k).sum + (ns.drop k).sum = ns.sum := List.sum_take_add_sum_drop ns k
  omega

theorem average_of_exact (s : State) (qs : List ℚ) (hb : s.price_buffer = qs.map Dbl.fin)
    (hne : qs ≠ []) (hs : ExactSums qs) (hm : Representable (meanQ qs)) :
    get_moving_average s = Dbl.fin (meanQ qs) := by
  have hlen : qs.length ≠ 0 := fun h0 => hne (List.length_eq_zero.mp h0)
  have hemp : (qs.map Dbl.fin).isEmpty = false := by
    cases qs with
    | nil => exact absurd rfl hne
    | cons a l => rfl
  unfold get_moving_average
  rw [hb]
  simp only [hemp, Bool.false_eq_true, if_false, foldl_add_exact qs hs, List.length_map,
    divNat_fin _ _ hlen]
  exact hm

/-! ## The window -/

/-- C1: after any sequence of `add_price` calls on a fresh state (the initial
one or one just reset), `price_buffer` is exactly the last `min N 20` prices of
the sequence, in arrival order. -/
theorem window_holds_last_prices (s0 : State) (h : Fresh s0) (ps : List Dbl) :
    (add_prices s0 ps).price_buffer = lastN 20 ps ∧
    (add_prices s0 ps).price_buffer.length = min ps.length 20 := by
  rw [fresh_eq_init h, window_init]
  exact ⟨rfl, lastN_length 20 ps⟩

theorem window_holds_last_prices_witness :
    Fresh (reset_processor (add_price initState Dbl.pinf)) ∧
    (add_prices (reset_processor (add_price initState Dbl.pinf)) (upTo 25)).price_buffer
        = lastN 20 (upTo 25) ∧
    (add_prices (reset_processor (add_price initState Dbl.pinf)) (upTo 25)).price_buffer.length
        = min (upTo 25).length 20 :=
  ⟨Or.inr ⟨_, rfl⟩,
    window_holds_last_prices (reset_processor (add_price initState Dbl.pinf))
      (Or.inr ⟨_, rfl⟩) (upTo 25)⟩

/-! ## The moving average -/

/-- C3: evaluation at the failing input. After the single price `-1.0` is
added to the initial state, `get_high` returns `0.0`, which is not the maximum
of the prices added: `high_price` starts at `0.0` and only a price `> 0.0`
replaces it. -/
theorem get_high_after_negative_price :
    get_high (add_prices initState [Dbl.fin (-1)]) = Dbl.fin 0 ∧
    ¬ IsMaxOf (get_high (add_prices initState [Dbl.fin (-1)])) [Dbl.fin (-1)] := by
  have h : get_high (add_prices initState [Dbl.fin (-1)]) = Dbl.fin 0 := by
    simp [get_high, add_prices, add_price, initState, Dbl.gt, Dbl.lt]
  refine ⟨h, ?_⟩
  rw [h]
  intro hmax
  have := hmax.1
  simp at this

/-- C4: evaluation at the failing input. After the single price `DBL_MAX` is
added to the initial state, `get_low` returns `0.0`, which is not the minimum
of the prices added: `low_price` still holds the value that marks it unset,
and `get_low` reads that value as `0.0`. -/
theorem get_low_after_dbl_max :
    get_low (add_prices initState [Dbl.fin DBL_MAX]) = Dbl.fin 0 ∧
    ¬ IsMinOf (get_low (add_prices initState [Dbl.fin DBL_MAX])) [Dbl.fin DBL_MAX] := by
  have h : get_low (add_prices initState [Dbl.fin DBL_MAX]) = Dbl.fin 0 := by
    simp [get_low, add_prices, add_price, initState, Dbl.lt, Dbl.eq]
  refine ⟨h, ?_⟩
  rw [h]
  intro hmin
  have h1 := hmin.1
  simp only [List.mem_singleton, Dbl.fin.injEq] at h1
  exact absurd h1 (ne_of_lt dbl_max_pos)

/-- For every sequence of prices added to a fresh state in which some price is
strictly less than `DBL_MAX`, `get_low` returns the minimum of the prices added
so far. -/
theorem get_low_is_min (s0 : State) (h : Fresh s0) (ps : List Dbl)
    (hlt : ∃ p ∈ ps, Dbl.lt p (Dbl.fin DBL_MAX) = true) :
    IsMinOf (get_low (add_prices s0 ps)) ps := by
  rw [fresh_eq_init h]
  obtain ⟨hn, _, hmem, hle⟩ := low_inv ps
  obtain ⟨p, hp, hpl⟩ := hlt
  have hlow : Dbl.lt (add_prices initState ps).low_price (Dbl.fin DBL_MAX) = true :=
    dlt_of_le_of_lt (hle p hp (lt_notNaN_left hpl)) hpl
  have hget : get_low (add_prices initState ps) = (add_prices initState ps).low_price := by
    simp only [get_low, deq_false_of_lt hlow, Bool.false_eq_true, if_false]
  rw [hget]
  refine ⟨?_, hn, hle⟩
  rcases hmem with hm | hm
  · rw [hm] at hlow
    simp [Dbl.lt] at hlow
  · exact hm

theorem get_low_is_min_witness :
    Fresh initState ∧
    (∃ p ∈ [Dbl.fin 5, Dbl.fin 3, Dbl.pinf], Dbl.lt p (Dbl.fin DBL_MAX) = true) ∧
    IsMinOf (get_low (add_prices initState [Dbl.fin 5, Dbl.fin 3, Dbl.pinf]))
      [Dbl.fin 5, Dbl.fin 3, Dbl.pinf] :=
  have hlt : ∃ p ∈ [Dbl.fin 5, Dbl.fin 3, Dbl.pinf], Dbl.lt p (Dbl.fin DBL_MAX) = true :=
    ⟨Dbl.fin 5, by simp, by simp [Dbl.lt, DBL_MAX]; norm_num⟩
  ⟨Or.inl rfl, hlt,
    get_low_is_min initState (Or.inl rfl) [Dbl.fin 5, Dbl.fin 3, Dbl.pinf] hlt⟩

/-- C5: in every state reachable from the initial state by `add_price` and
`reset_processor` calls, `price_buffer` has at most 20 elements. -/
theorem window_at_most_20 (ops : List Op) :
    (run initState ops).price_buffer.length ≤ 20 := by
  rw [run_eq_add_prices, window_init, lastN_length]
  exact Nat.min_le_right _ _

/-- C6: in every reachable state, every non-NaN price `p` added since the last
reset (or since the start when there was none) satisfies `get_high() >= p` and
`get_low() <= p`. -/
theorem extrema_bound_added_prices (ops : List Op) (p : Dbl)
    (hp : p ∈ sinceReset ops) (hnan : Dbl.isNaN p = false) :
    Dbl.ge (get_high (run initState ops)) p = true ∧
    Dbl.le (get_low (run initState ops)) p = true := by
  rw [run_eq_add_prices]
  refine ⟨(high_inv (sinceReset ops)).2 p hp hnan, ?_⟩
  obtain ⟨_, _, _, hle⟩ := low_inv (sinceReset ops)
  have hlp := hle p hp hnan
  unfold get_low
  by_cases hs : Dbl.eq (add_prices initState (sinceReset ops)).low_price (Dbl.fin DBL_MAX) = true
  · rw [if_pos hs]
    rw [(deq_iff.mp hs).1] at hlp
    have h0 : Dbl.le (Dbl.fin 0) (Dbl.fin DBL_MAX) = true := by
      simp [Dbl.le, Dbl.lt, dbl_max_pos]
    exact dle_trans h0 hlp
  · rw [if_neg hs]
    exact hlp

theorem extrema_bound_added_prices_witness :
    Dbl.fin (-2) ∈ sinceReset
      [Op.add (Dbl.fin 9), Op.reset, Op.add (Dbl.fin (-2)), Op.add Dbl.nan, Op.add (Dbl.fin 4)] ∧
    Dbl.isNaN (Dbl.fin (-2)) = false ∧
    Dbl.ge (get_high (run initState
      [Op.add (Dbl.fin 9), Op.reset, Op.add (Dbl.fin (-2)), Op.add Dbl.nan, Op.add (Dbl.fin 4)]))
      (Dbl.fin (-2)) = true ∧
    Dbl.le (get_low (run initState
      [Op.add (Dbl.fin 9), Op.reset, Op.add (Dbl.fin (-2)), Op.add Dbl.nan, Op.add (Dbl.fin 4)]))
      (Dbl.fin (-2)) = true :=
  ⟨by simp [sinceReset], rfl,
    extrema_bound_added_prices
      [Op.add (Dbl.fin 9), Op.reset, Op.add (Dbl.fin (-2)), Op.add Dbl.nan, Op.add (Dbl.fin 4)]
      (Dbl.fin (-2)) (by simp [sinceReset]) rfl⟩

/-! ## Fresh states and reset -/

/-- C7: on the initial state, and on the state that `reset_processor` produces
from any state, `get_moving_average`, `get_high` and `get_low` all return
`0.0`. -/
theorem fresh_reads_zero :
    (get_moving_average initState = Dbl.fin 0 ∧ get_high initState = Dbl.fin 0 ∧
      get_low initState = Dbl.fin 0) ∧
    ∀ s : State,
      get_moving_average (reset_processor s) = Dbl.fin 0 ∧
      get_high (reset_processor s) = Dbl.fin 0 ∧
      get_low (reset_processor s) = Dbl.fin 0 := by
  have h : get_moving_average initState = Dbl.fin 0 ∧ get_high initState = Dbl.fin 0 ∧
      get_low initState = Dbl.fin 0 := by
    refine ⟨rfl, rfl, ?_⟩
    simp [get_low, initState, Dbl.eq]
  exact ⟨h, fun s => by rw [reset_eq_init]; exact h⟩

/-- C8: `reset_processor` takes every state to the initial state (empty
window, `high_price = 0.0`, `low_price = DBL_MAX`), so a run of operations
after a reset ends in the same state, and gives the same reads, as the run
from the initial state. -/
theorem reset_gives_initial_state (s : State) :
    reset_processor s = initState ∧
    (reset_processor s).price_buffer = [] ∧
    (reset_processor s).high_price = Dbl.fin 0 ∧
    (reset_processor s).low_price = Dbl.fin DBL_MAX ∧
    ∀ ops : List Op,
      run (reset_processor s) ops = run initState ops ∧
      get_moving_average (run (reset_processor s) ops)
        = get_moving_average (run initState ops) ∧
      get_high (run (reset_processor s) ops) = get_high (run initState ops) ∧
      get_low (run (reset_processor s) ops) = get_low (run initState ops) := by
  refine ⟨rfl, rfl, rfl, rfl, fun ops => ?_⟩
  rw [reset_eq_init]
  exact ⟨rfl, rfl, rfl, rfl⟩

/-- C9: `reset_processor` is idempotent. -/
theorem reset_idempotent (s : State) :
    reset_processor (reset_processor s) = reset_processor s := rfl

/-! ## Scenario -/

theorem exactSums_two_to_21 :
    ExactSums [2, 3, 4, 5, 6, 7, 8, 9, 10, 11, 12, 13, 14, 15, 16, 17, 18, 19, 20, 21] := by
  have h := exactSums_nat [2, 3, 4, 5, 6, 7, 8, 9, 10, 11, 12, 13, 14, 15, 16, 17, 18, 19, 20, 21] (by norm_num)
  simpa using h

theorem mean_two_to_21 :
    meanQ [2, 3, 4, 5, 6, 7, 8, 9, 10, 11, 12, 13, 14, 15, 16, 17, 18, 19, 20, 21] = 23 / 2 := by
  norm_num [meanQ]

theorem representable_23_halves : Representable (23 / 2) := by
  have h := representable_scaled 23 (-1) (by norm_num) (by norm_num) (by norm_num)
  norm_num at h
  exact h

theorem average_two_to_21 (hi lo : Dbl) :
    get_moving_average (State.mk (List.map Dbl.fin [2, 3, 4, 5, 6, 7, 8, 9, 10, 11, 12, 13, 14, 15, 16, 17, 18, 19, 20, 21]) hi lo)
      = Dbl.fin (23 / 2) := by
  rw [average_of_exact _
    [2, 3, 4, 5, 6, 7, 8, 9, 10, 11, 12, 13, 14, 15, 16, 17, 18, 19, 20, 21]
    rfl (by simp) exactSums_two_to_21
    (by rw [mean_two_to_21]; exact representable_23_halves), mean_two_to_21]

theorem exactSums_5_10_3_list : ExactSums [5, 10, 3] := by
  have h := exactSums_nat [5, 10, 3] (by norm_num)
  simpa using h

theorem mean_5_10_3 : meanQ [5, 10, 3] = 6 := by
  norm_num [meanQ]

theorem representable_six : Representable 6 := by
  have h := representable_nat 6 (by norm_num)
  simpa using h

/-- C10: adding `1.0, 2.0, ..., 21.0` in order to the initial state leaves the
window equal to `2.0, ..., 21.0`; then `get_moving_average` is `11.5`,
`get_high` is `21.0` and `get_low` is `1.0`. -/
theorem scenario_one_to_twenty_one :
    (add_prices initState (List.map Dbl.fin
      [1, 2, 3, 4, 5, 6, 7, 8, 9, 10, 11, 12, 13, 14, 15, 16, 17, 18, 19, 20, 21])).price_buffer
      = List.map Dbl.fin
        [2, 3, 4, 5, 6, 7, 8, 9, 10, 11, 12, 13, 14, 15, 16, 17, 18, 19, 20, 21] ∧
    get_moving_average (add_prices initState (List.map Dbl.fin
      [1, 2, 3, 4, 5, 6, 7, 8, 9, 10, 11, 12, 13, 14, 15, 16, 17, 18, 19, 20, 21]))
      = Dbl.fin (23 / 2) ∧
    get_high (add_prices initState (List.map Dbl.fin
      [1, 2, 3, 4, 5, 6, 7, 8, 9, 10, 11, 12, 13, 14, 15, 16, 17, 18, 19, 20, 21]))
      = Dbl.fin 21 ∧
    get_low (add_prices initState (List.map Dbl.fin
      [1, 2, 3, 4, 5, 6, 7, 8, 9, 10, 11, 12, 13, 14, 15, 16, 17, 18, 19, 20, 21]))
      = Dbl.fin 1 := by
  have hs : add_prices initState (List.map Dbl.fin
      [1, 2, 3, 4, 5, 6, 7, 8, 9, 10, 11, 12, 13, 14, 15, 16, 17, 18, 19, 20, 21])
      = { price_buffer := List.map Dbl.fin
            [2, 3, 4, 5, 6, 7, 8, 9, 10, 11, 12, 13, 14, 15, 16, 17, 18, 19, 20, 21],
          high_price := Dbl.fin 21, low_price := Dbl.fin 1 } := by
    have hmax : (1 : ℚ) < DBL_MAX := by unfold DBL_MAX; norm_num
    simp only [add_prices, initState, List.map, List.foldl, add_price_fin]
    norm_num [hmax]
  rw [hs]
  refine ⟨rfl, ?_, rfl, ?_⟩
  · exact average_two_to_21 _ _
  · have hne : ¬ ((1 : ℚ) = DBL_MAX) := by unfold DBL_MAX; norm_num
    simp [get_low, Dbl.eq, hne]

/-- C11: adding `5.0, 10.0, 3.0` in order to the initial state gives
`get_high() = 10.0`, `get_low() = 3.0` and `get_moving_average() = 6.0`. -/
theorem scenario_five_ten_three :
    get_high (add_prices initState [Dbl.fin 5, Dbl.fin 10, Dbl.fin 3]) = Dbl.fin 10 ∧
    get_low (add_prices initState [Dbl.fin 5, Dbl.fin 10, Dbl.fin 3]) = Dbl.fin 3 ∧
    get_moving_average (add_prices initState [Dbl.fin 5, Dbl.fin 10, Dbl.fin 3])
      = Dbl.fin 6 := by
  have hs : add_prices initState [Dbl.fin 5, Dbl.fin 10, Dbl.fin 3]
      = { price_buffer := [Dbl.fin 5, Dbl.fin 10, Dbl.fin 3],
          high_price := Dbl.fin 10, low_price := Dbl.fin 3 } := by
    have hmax : (5 : ℚ) < DBL_MAX := by unfold DBL_MAX; norm_num
    simp only [add_prices, initState, List.foldl, add_price_fin]
    norm_num [hmax]
  rw [hs]
  refine ⟨rfl, ?_, ?_⟩
  · have hne : ¬ ((3 : ℚ) = DBL_MAX) := by unfold DBL_MAX; norm_num
    simp [get_low, Dbl.eq, hne]
  · rw [average_of_exact _ [5, 10, 3] rfl (by simp) exactSums_5_10_3_list
      (by rw [mean_5_10_3]; exact representable_six), mean_5_10_3]

/-! ## Further helper lemmas -/

theorem add_prices_append (s : State) (ps qs : List Dbl) :
    add_prices s (ps ++ qs) = add_prices (add_prices s ps) qs := by
  simp [add_prices, List.foldl_append]

theorem dlt_irrefl (a : Dbl) : Dbl.lt a a = false := by
  cases a <;> simp [Dbl.lt]

theorem dle_antisymm {a b : Dbl} (h1 : Dbl.le a b = true) (h2 : Dbl.le b a = true) :
    a = b := by
  cases a <;> cases b <;> simp_all [Dbl.le, Dbl.lt, Dbl.eq]
  rcases h1 with h1 | h1
  · rcases h2 with h2 | h2
    · exact absurd h1 (not_lt_of_lt h2)
    · exact h2.symm
  · exact h1

theorem low_lt_max (ps : List Dbl)
    (h : ∃ p ∈ ps, Dbl.lt p (Dbl.fin DBL_MAX) = true) :
    Dbl.lt (add_prices initState ps).low_price (Dbl.fin DBL_MAX) = true := by
  obtain ⟨p, hp, hpl⟩ := h
  exact dlt_of_le_of_lt ((low_inv ps).2.2.2 p hp (lt_notNaN_left hpl)) hpl

theorem get_low_of_lt_max (s : State)
    (h : Dbl.lt s.low_price (Dbl.fin DBL_MAX) = true) : get_low s = s.low_price := by
  simp only [get_low, deq_false_of_lt h, Bool.false_eq_true, if_false]

theorem get_low_of_eq_max (s : State) (h : s.low_price = Dbl.fin DBL_MAX) :
    get_low s = Dbl.fin 0 := by
  simp [get_low, h, Dbl.eq]

/-! ## Monotonic extrema -/

/-- C13: evaluation at the failing input. After the single price `DBL_MAX`,
`get_low` reads `0.0`; adding the price `5.0` then raises it to `5.0`, so the
low is not monotonic there. -/
theorem get_low_rises_after_dbl_max :
    sinceReset [Op.add (Dbl.fin DBL_MAX)] = [Dbl.fin DBL_MAX] ∧
    get_low (run initState [Op.add (Dbl.fin DBL_MAX)]) = Dbl.fin 0 ∧
    get_low (add_price (run initState [Op.add (Dbl.fin DBL_MAX)]) (Dbl.fin 5)) = Dbl.fin 5 ∧
    Dbl.le (get_low (add_price (run initState [Op.add (Dbl.fin DBL_MAX)]) (Dbl.fin 5)))
      (get_low (run initState [Op.add (Dbl.fin DBL_MAX)])) = false := by
  have h5 : (5 : ℚ) < DBL_MAX := by unfold DBL_MAX; norm_num
  have h5ne : ¬ ((5 : ℚ) = DBL_MAX) := ne_of_lt h5
  have h0 : get_low (run initState [Op.add (Dbl.fin DBL_MAX)]) = Dbl.fin 0 := by
    simp [get_low, run, step, add_price, initState, Dbl.lt, Dbl.eq]
  have h1 : get_low (add_price (run initState [Op.add (Dbl.fin DBL_MAX)]) (Dbl.fin 5))
      = Dbl.fin 5 := by
    simp [get_low, run, step, add_price, initState, Dbl.lt, Dbl.eq, h5, h5ne]
  refine ⟨by simp [sinceReset], h0, h1, ?_⟩
  rw [h0, h1]
  simp [Dbl.le, Dbl.lt, Dbl.eq]

/-- In every reachable state and for every price `p`, `get_high()` after
`add_price(p)` is `>=` `get_high()` before it. -/
theorem get_high_monotone (ops : List Op) (p : Dbl) :
    Dbl.ge (get_high (add_price (run initState ops) p)) (get_high (run initState ops))
      = true := by
  rw [run_eq_add_prices]
  have hhn := (high_inv (sinceReset ops)).1
  simp only [get_high, add_price, Dbl.ge, Dbl.gt]
  by_cases hx : Dbl.lt (add_prices initState (sinceReset ops)).high_price p = true
  · rw [if_pos hx]
    exact dle_of_lt hx
  · rw [if_neg hx]
    exact dle_refl hhn

/-- In every reachable state in which some price strictly less than `DBL_MAX`
has been added since the last reset, and for every price `p`, `get_low()` after
`add_price(p)` is `<=` `get_low()` before it. -/
theorem get_low_monotone (ops : List Op) (p : Dbl)
    (h : ∃ q ∈ sinceReset ops, Dbl.lt q (Dbl.fin DBL_MAX) = true) :
    Dbl.le (get_low (add_price (run initState ops) p)) (get_low (run initState ops))
      = true := by
  rw [run_eq_add_prices]
  have hln := (low_inv (sinceReset ops)).1
  have hlow := low_lt_max (sinceReset ops) h
  rw [get_low_of_lt_max _ hlow]
  by_cases hx : Dbl.lt p (add_prices initState (sinceReset ops)).low_price = true
  · have hnew : (add_price (add_prices initState (sinceReset ops)) p).low_price = p := by
      simp only [add_price, if_pos hx]
    have hlt : Dbl.lt (add_price (add_prices initState (sinceReset ops)) p).low_price
        (Dbl.fin DBL_MAX) = true := by
      rw [hnew]
      exact dlt_of_le_of_lt (dle_of_lt hx) hlow
    rw [get_low_of_lt_max _ hlt, hnew]
    exact dle_of_lt hx
  · have hnew : (add_price (add_prices initState (sinceReset ops)) p).low_price
        = (add_prices initState (sinceReset ops)).low_price := by
      simp only [add_price, if_neg hx]
    have hlt : Dbl.lt (add_price (add_prices initState (sinceReset ops)) p).low_price
        (Dbl.fin DBL_MAX) = true := by
      rw [hnew]
      exact hlow
    rw [get_low_of_lt_max _ hlt, hnew]
    exact dle_refl hln

/-! ## NaN prices -/

theorem dadd_nan_right (a : Dbl) : Dbl.add a Dbl.nan = Dbl.nan := by
  cases a <;> rfl

theorem dadd_nan_left (a : Dbl) : Dbl.add Dbl.nan a = Dbl.nan := by
  cases a <;> rfl

theorem buffer_add_price (s : State) (x : Dbl) :
    (add_price s x).price_buffer =
      (if s.price_buffer.length ≥ 20 then s.price_buffer.eraseIdx 0 else s.price_buffer)
        ++ [x] := rfl

theorem foldl_add_from_nan (l : List Dbl) :
    l.foldl (fun acc p => Dbl.add acc p) Dbl.nan = Dbl.nan := by
  induction l with
  | nil => rfl
  | cons a l ih => rw [List.foldl_cons, dadd_nan_left, ih]

theorem foldl_add_nan (l : List Dbl) (acc : Dbl) (h : Dbl.nan ∈ l) :
    l.foldl (fun acc p => Dbl.add acc p) acc = Dbl.nan := by
  induction l generalizing acc with
  | nil => exact absurd h (List.not_mem_nil _)
  | cons a l ih =>
    rw [List.foldl_cons]
    rcases List.mem_cons.mp h with h1 | h1
    · rw [← h1, dadd_nan_right, foldl_add_from_nan]
    · exact ih _ h1

theorem average_nan_of_mem (t : State) (h : Dbl.nan ∈ t.price_buffer) :
    get_moving_average t = Dbl.nan := by
  have hemp : t.price_buffer.isEmpty = false := by
    cases hb : t.price_buffer with
    | nil => rw [hb] at h; exact absurd h (List.not_mem_nil _)
    | cons a l => rfl
  unfold get_moving_average
  simp only [hemp, Bool.false_eq_true, if_false, foldl_add_nan _ _ h]
  rfl

theorem nan_kept (s : State) (ps : List Dbl) (hlen : ps.length < 20) :
    ∃ pre post, (add_prices (add_price s Dbl.nan) ps).price_buffer = pre ++ Dbl.nan :: post ∧
      post.length = ps.length := by
  induction ps using List.reverseRecOn with
  | nil =>
    exact ⟨if s.price_buffer.length ≥ BUFFER_SIZE then s.price_buffer.eraseIdx 0
      else s.price_buffer, [], rfl, rfl⟩
  | append_singleton ps x ih =>
    have hlen1 : ps.length < 19 := by
      simp only [List.length_append, List.length_singleton] at hlen
      omega
    obtain ⟨pre, post, hbuf, hpost⟩ := ih (by omega)
    rw [add_prices_snoc, buffer_add_price, hbuf]
    cases pre with
    | nil =>
      have hshort : ¬ (([] ++ Dbl.nan :: post).length ≥ 20) := by
        simp only [List.nil_append, List.length_cons]
        omega
      rw [if_neg hshort]
      exact ⟨[], post ++ [x], by simp, by simp [hpost]⟩
    | cons a pre1 =>
      by_cases hfull : ((a :: pre1) ++ Dbl.nan :: post).length ≥ 20
      · rw [if_pos hfull]
        exact ⟨pre1, post ++ [x], by simp, by simp [hpost]⟩
      · rw [if_neg hfull]
        exact ⟨a :: pre1, post ++ [x], by simp, by simp [hpost]⟩

theorem lastN_append_of_long {α : Type} (l qs : List α) (h : 20 ≤ qs.length) :
    lastN 20 (l ++ qs) = lastN 20 qs := by
  have h1 : (l ++ qs).length - 20 = l.length + (qs.length - 20) := by
    simp only [List.length_append]
    omega
  simp only [lastN, h1, List.drop_append]

/-- C14: for every state, `add_price(NaN)` leaves `high_price` and `low_price`
unchanged; `get_moving_average()` returns NaN in every state whose window
contains a NaN; the NaN just added is still in the window after fewer than 20
further prices, so the average is NaN there; and in a reachable state, once 20
or more further prices have been added the window holds only the last 20 of
them, while a reset brings the average back to `0.0`. -/
theorem nan_price_effect (s : State) (ps : List Dbl) (hlen : ps.length < 20) :
    (add_price s Dbl.nan).high_price = s.high_price ∧
    (add_price s Dbl.nan).low_price = s.low_price ∧
    (∀ t : State, Dbl.nan ∈ t.price_buffer → get_moving_average t = Dbl.nan) ∧
    Dbl.nan ∈ (add_prices (add_price s Dbl.nan) ps).price_buffer ∧
    get_moving_average (add_prices (add_price s Dbl.nan) ps) = Dbl.nan ∧
    (∀ (ops : List Op) (qs : List Dbl), 20 ≤ qs.length →
      (add_prices (add_price (run initState ops) Dbl.nan) qs).price_buffer = lastN 20 qs) ∧
    get_moving_average (reset_processor (add_prices (add_price s Dbl.nan) ps)) = Dbl.fin 0 := by
  have hmem : Dbl.nan ∈ (add_prices (add_price s Dbl.nan) ps).price_buffer := by
    obtain ⟨pre, post, hbuf, _⟩ := nan_kept s ps hlen
    rw [hbuf]
    simp
  refine ⟨?_, ?_, average_nan_of_mem, hmem, average_nan_of_mem _ hmem, ?_, rfl⟩
  · simp [add_price, Dbl.gt, Dbl.lt]
  · simp [add_price, Dbl.lt]
  · intro ops qs hqs
    rw [run_eq_add_prices, ← add_prices_snoc, ← add_prices_append, window_init,
      lastN_append_of_long _ _ hqs]

theorem nan_price_effect_witness :
    [Dbl.fin 1, Dbl.fin 2].length < 20 ∧
    ((add_price (add_price initState (Dbl.fin 3)) Dbl.nan).high_price
      = (add_price initState (Dbl.fin 3)).high_price ∧
    (add_price (add_price initState (Dbl.fin 3)) Dbl.nan).low_price
      = (add_price initState (Dbl.fin 3)).low_price ∧
    (∀ t : State, Dbl.nan ∈ t.price_buffer → get_moving_average t = Dbl.nan) ∧
    Dbl.nan ∈ (add_prices (add_price (add_price initState (Dbl.fin 3)) Dbl.nan)
      [Dbl.fin 1, Dbl.fin 2]).price_buffer ∧
    get_moving_average (add_prices (add_price (add_price initState (Dbl.fin 3)) Dbl.nan)
      [Dbl.fin 1, Dbl.fin 2]) = Dbl.nan ∧
    (∀ (ops : List Op) (qs : List Dbl), 20 ≤ qs.length →
      (add_prices (add_price (run initState ops) Dbl.nan) qs).price_buffer = lastN 20 qs) ∧
    get_moving_average (reset_processor
      (add_prices (add_price (add_price initState (Dbl.fin 3)) Dbl.nan)
        [Dbl.fin 1, Dbl.fin 2])) = Dbl.fin 0) :=
  ⟨by decide, nan_price_effect (add_price initState (Dbl.fin 3)) [Dbl.fin 1, Dbl.fin 2]
    (by decide)⟩

/-! ## Exact characterisation of the extrema -/

theorem high_inv_zero (ps : List Dbl) :
    Dbl.le (Dbl.fin 0) (add_prices initState ps).high_price = true ∧
    ((add_prices initState ps).high_price = Dbl.fin 0 ∨
      (add_prices initState ps).high_price ∈ ps) := by
  induction ps using List.reverseRecOn with
  | nil => exact ⟨dle_refl rfl, Or.inl rfl⟩
  | append_singleton ps x ih =>
    obtain ⟨h0, hmem⟩ := ih
    rw [add_prices_snoc]
    simp only [add_price, Dbl.gt]
    by_cases hx : Dbl.lt (add_prices initState ps).high_price x = true
    · rw [if_pos hx]
      exact ⟨dle_trans h0 (dle_of_lt hx),
        Or.inr (List.mem_append.mpr (Or.inr (List.mem_singleton.mpr rfl)))⟩
    · rw [if_neg hx]
      exact ⟨h0, hmem.imp id (fun h => List.mem_append.mpr (Or.inl h))⟩

theorem high_isMax (ps : List Dbl) :
    IsMaxOf (add_prices initState ps).high_price (Dbl.fin 0 :: ps) := by
  obtain ⟨h0, hmem⟩ := high_inv_zero ps
  obtain ⟨hn, hle⟩ := high_inv ps
  refine ⟨?_, hn, fun p hp hpn => ?_⟩
  · rcases hmem with h | h
    · rw [h]
      exact List.mem_cons_self _ _
    · exact List.mem_cons_of_mem _ h
  · rcases List.mem_cons.mp hp with h | h
    · rw [h]
      exact h0
    · exact hle p h hpn

theorem isMaxOf_unique {m n : Dbl} {l : List Dbl} (hm : IsMaxOf m l) (hn : IsMaxOf n l) :
    m = n :=
  dle_antisymm (hn.2.2 m hm.1 hm.2.1) (hm.2.2 n hn.1 hn.2.1)

theorem isMinOf_unique {m n : Dbl} {l : List Dbl} (hm : IsMinOf m l) (hn : IsMinOf n l) :
    m = n :=
  dle_antisymm (hm.2.2 n hn.1 hn.2.1) (hn.2.2 m hm.1 hm.2.1)

theorem isMaxOf_perm {m : Dbl} {l k : List Dbl} (h : IsMaxOf m l) (hp : l.Perm k) :
    IsMaxOf m k :=
  ⟨hp.mem_iff.mp h.1, h.2.1, fun p hpk hpn => h.2.2 p (hp.mem_iff.mpr hpk) hpn⟩

theorem isMinOf_perm {m : Dbl} {l k : List Dbl} (h : IsMinOf m l) (hp : l.Perm k) :
    IsMinOf m k :=
  ⟨hp.mem_iff.mp h.1, h.2.1, fun p hpk hpn => h.2.2 p (hp.mem_iff.mpr hpk) hpn⟩

theorem low_isMin (ps : List Dbl)
    (h : ∃ p ∈ ps, Dbl.lt p (Dbl.fin DBL_MAX) = true) :
    IsMinOf (get_low (add_prices initState ps)) ps := by
  have hlow := low_lt_max ps h
  obtain ⟨hn, _, hmem, hle⟩ := low_inv ps
  rw [get_low_of_lt_max _ hlow]
  refine ⟨?_, hn, hle⟩
  rcases hmem with hm | hm
  · rw [hm, dlt_irrefl] at hlow
    exact absurd hlow (by decide)
  · exact hm

theorem low_stays_max (ps : List Dbl)
    (h : ∀ p ∈ ps, Dbl.lt p (Dbl.fin DBL_MAX) = false) :
    (add_prices initState ps).low_price = Dbl.fin DBL_MAX := by
  induction ps using List.reverseRecOn with
  | nil => rfl
  | append_singleton ps x ih =>
    have hps : (add_prices initState ps).low_price = Dbl.fin DBL_MAX :=
      ih (fun p hp => h p (List.mem_append.mpr (Or.inl hp)))
    have hx : Dbl.lt x (Dbl.fin DBL_MAX) = false :=
      h x (List.mem_append.mpr (Or.inr (List.mem_singleton.mpr rfl)))
    rw [add_prices_snoc]
    simp only [add_price, hps, hx, Bool.false_eq_true, if_false]

/-- C15: for every sequence of prices added to a fresh state, `get_high()` is
the maximum of `0.0` and the prices added (NaN prices left out); it is `0.0`
for the empty sequence, it is never negative, and after only negative prices
it is `0.0`, a value that was never added. -/
theorem get_high_is_max_with_zero (s0 : State) (h : Fresh s0) (ps : List Dbl) :
    IsMaxOf (get_high (add_prices s0 ps)) (Dbl.fin 0 :: ps) ∧
    (ps = [] → get_high (add_prices s0 ps) = Dbl.fin 0) ∧
    Dbl.ge (get_high (add_prices s0 ps)) (Dbl.fin 0) = true ∧
    ((∀ p ∈ ps, Dbl.lt p (Dbl.fin 0) = true) →
      get_high (add_prices s0 ps) = Dbl.fin 0 ∧ Dbl.fin 0 ∉ ps) := by
  rw [fresh_eq_init h]
  refine ⟨high_isMax ps, fun hnil => by rw [hnil]; rfl, (high_inv_zero ps).1, fun hneg => ?_⟩
  constructor
  · rcases (high_inv_zero ps).2 with hz | hm
    · exact hz
    · have hlt := dlt_of_le_of_lt (high_inv_zero ps).1 (hneg _ hm)
      rw [dlt_irrefl] at hlt
      exact absurd hlt (by decide)
  · intro h0
    have hlt := hneg _ h0
    rw [dlt_irrefl] at hlt
    exact absurd hlt (by decide)

theorem get_high_is_max_with_zero_witness :
    Fresh initState ∧
    (IsMaxOf (get_high (add_prices initState [Dbl.fin (-3), Dbl.fin (-1)]))
      (Dbl.fin 0 :: [Dbl.fin (-3), Dbl.fin (-1)]) ∧
    ([Dbl.fin (-3), Dbl.fin (-1)] = [] →
      get_high (add_prices initState [Dbl.fin (-3), Dbl.fin (-1)]) = Dbl.fin 0) ∧
    Dbl.ge (get_high (add_prices initState [Dbl.fin (-3), Dbl.fin (-1)])) (Dbl.fin 0) = true ∧
    ((∀ p ∈ [Dbl.fin (-3), Dbl.fin (-1)], Dbl.lt p (Dbl.fin 0) = true) →
      get_high (add_prices initState [Dbl.fin (-3), Dbl.fin (-1)]) = Dbl.fin 0 ∧
      Dbl.fin 0 ∉ [Dbl.fin (-3), Dbl.fin (-1)])) :=
  ⟨Or.inl rfl, get_high_is_max_with_zero initState (Or.inl rfl) [Dbl.fin (-3), Dbl.fin (-1)]⟩

/-- C16: for every sequence of prices added to a fresh state, `get_low()` is
the minimum of the prices added (NaN prices left out) if some price is strictly
less than `DBL_MAX`, and `0.0` otherwise (no price added, or no price below
`DBL_MAX`, such as only `DBL_MAX` itself or `+infinity`). -/
theorem get_low_is_min_or_zero (s0 : State) (h : Fresh s0) (ps : List Dbl) :
    ((∃ p ∈ ps, Dbl.lt p (Dbl.fin DBL_MAX) = true) →
      IsMinOf (get_low (add_prices s0 ps)) ps) ∧
    ((¬ ∃ p ∈ ps, Dbl.lt p (Dbl.fin DBL_MAX) = true) →
      get_low (add_prices s0 ps) = Dbl.fin 0) := by
  rw [fresh_eq_init h]
  refine ⟨low_isMin ps, fun hno => ?_⟩
  apply get_low_of_eq_max
  apply low_stays_max
  intro p hp
  cases hlt : Dbl.lt p (Dbl.fin DBL_MAX) with
  | false => rfl
  | true => exact absurd ⟨p, hp, hlt⟩ hno

theorem get_low_is_min_or_zero_witness :
    Fresh initState ∧
    (((∃ p ∈ [Dbl.pinf, Dbl.fin DBL_MAX], Dbl.lt p (Dbl.fin DBL_MAX) = true) →
      IsMinOf (get_low (add_prices initState [Dbl.pinf, Dbl.fin DBL_MAX]))
        [Dbl.pinf, Dbl.fin DBL_MAX]) ∧
    ((¬ ∃ p ∈ [Dbl.pinf, Dbl.fin DBL_MAX], Dbl.lt p (Dbl.fin DBL_MAX) = true) →
      get_low (add_prices initState [Dbl.pinf, Dbl.fin DBL_MAX]) = Dbl.fin 0)) :=
  ⟨Or.inl rfl, get_low_is_min_or_zero initState (Or.inl rfl) [Dbl.pinf, Dbl.fin DBL_MAX]⟩

/-! ## The average and the extrema -/

theorem state_ascending_21 :
    add_prices initState (List.map Dbl.fin [1, 2, 3, 4, 5, 6, 7, 8, 9, 10, 11, 12, 13, 14, 15, 16, 17, 18, 19, 20, 21])
      = { price_buffer := List.map Dbl.fin [2, 3, 4, 5, 6, 7, 8, 9, 10, 11, 12, 13, 14, 15, 16, 17, 18, 19, 20, 21],
          high_price := Dbl.fin 21, low_price := Dbl.fin 1 } := by
  have hmax : (1 : ℚ) < DBL_MAX := by unfold DBL_MAX; norm_num
  simp only [add_prices, initState, List.map, List.foldl, add_price_fin]
  norm_num [hmax]

theorem state_rotated_21 :
    add_prices initState (List.map Dbl.fin [21, 1, 2, 3, 4, 5, 6, 7, 8, 9, 10, 11, 12, 13, 14, 15, 16, 17, 18, 19, 20])
      = { price_buffer := List.map Dbl.fin [1, 2, 3, 4, 5, 6, 7, 8, 9, 10, 11, 12, 13, 14, 15, 16, 17, 18, 19, 20],
          high_price := Dbl.fin 21, low_price := Dbl.fin 1 } := by
  have hmax : (21 : ℚ) < DBL_MAX := by unfold DBL_MAX; norm_num
  simp only [add_prices, initState, List.map, List.foldl, add_price_fin]
  norm_num [hmax]

theorem exactSums_one_to_20 :
    ExactSums [1, 2, 3, 4, 5, 6, 7, 8, 9, 10, 11, 12, 13, 14, 15, 16, 17, 18, 19, 20] := by
  have h := exactSums_nat [1, 2, 3, 4, 5, 6, 7, 8, 9, 10, 11, 12, 13, 14, 15, 16, 17, 18, 19, 20] (by norm_num)
  simpa using h

theorem mean_one_to_20 :
    meanQ [1, 2, 3, 4, 5, 6, 7, 8, 9, 10, 11, 12, 13, 14, 15, 16, 17, 18, 19, 20] = 21 / 2 := by
  norm_num [meanQ]

theorem representable_21_halves : Representable (21 / 2) := by
  have h := representable_scaled 21 (-1) (by norm_num) (by norm_num) (by norm_num)
  norm_num at h
  exact h

theorem average_one_to_20 (hi lo : Dbl) :
    get_moving_average (State.mk (List.map Dbl.fin [1, 2, 3, 4, 5, 6, 7, 8, 9, 10, 11, 12, 13, 14, 15, 16, 17, 18, 19, 20]) hi lo)
      = Dbl.fin (21 / 2) := by
  rw [average_of_exact _
    [1, 2, 3, 4, 5, 6, 7, 8, 9, 10, 11, 12, 13, 14, 15, 16, 17, 18, 19, 20]
    rfl (by simp) exactSums_one_to_20
    (by rw [mean_one_to_20]; exact representable_21_halves), mean_one_to_20]

/-- C18: for every two sequences of prices that are permutations of each other,
adding either to a fresh state gives the same `get_high()` and the same
`get_low()`; the window and `get_moving_average()` can differ once more than 20
prices have been added, as for `1.0, ..., 21.0` against `21.0, 1.0, ..., 20.0`. -/
theorem extrema_ignore_order (s0 : State) (h : Fresh s0) (ps qs : List Dbl)
    (hperm : ps.Perm qs) :
    get_high (add_prices s0 ps) = get_high (add_prices s0 qs) ∧
    get_low (add_prices s0 ps) = get_low (add_prices s0 qs) ∧
    ((List.map Dbl.fin [1, 2, 3, 4, 5, 6, 7, 8, 9, 10, 11, 12, 13, 14, 15, 16, 17, 18, 19, 20, 21]).Perm
        (List.map Dbl.fin [21, 1, 2, 3, 4, 5, 6, 7, 8, 9, 10, 11, 12, 13, 14, 15, 16, 17, 18, 19, 20]) ∧
      (add_prices s0 (List.map Dbl.fin [1, 2, 3, 4, 5, 6, 7, 8, 9, 10, 11, 12, 13, 14, 15, 16, 17, 18, 19, 20, 21])).price_buffer
        ≠ (add_prices s0 (List.map Dbl.fin [21, 1, 2, 3, 4, 5, 6, 7, 8, 9, 10, 11, 12, 13, 14, 15, 16, 17, 18, 19, 20])).price_buffer ∧
      get_moving_average (add_prices s0 (List.map Dbl.fin [1, 2, 3, 4, 5, 6, 7, 8, 9, 10, 11, 12, 13, 14, 15, 16, 17, 18, 19, 20, 21]))
        ≠ get_moving_average (add_prices s0 (List.map Dbl.fin [21, 1, 2, 3, 4, 5, 6, 7, 8, 9, 10, 11, 12, 13, 14, 15, 16, 17, 18, 19, 20]))) := by
  rw [fresh_eq_init h]
  refine ⟨?_, ?_, ?_, ?_, ?_⟩
  · exact isMaxOf_unique (isMaxOf_perm (high_isMax ps) (List.Perm.cons _ hperm))
      (high_isMax qs)
  · by_cases hlt : ∃ p ∈ ps, Dbl.lt p (Dbl.fin DBL_MAX) = true
    · have hlt2 : ∃ p ∈ qs, Dbl.lt p (Dbl.fin DBL_MAX) = true := by
        obtain ⟨p, hp, hpl⟩ := hlt
        exact ⟨p, hperm.mem_iff.mp hp, hpl⟩
      exact isMinOf_unique (isMinOf_perm (low_isMin ps hlt) hperm) (low_isMin qs hlt2)
    · have hps : ∀ p ∈ ps, Dbl.lt p (Dbl.fin DBL_MAX) = false := by
        intro p hp
        cases hl : Dbl.lt p (Dbl.fin DBL_MAX) with
        | false => rfl
        | true => exact absurd ⟨p, hp, hl⟩ hlt
      have hqs : ∀ p ∈ qs, Dbl.lt p (Dbl.fin DBL_MAX) = false :=
        fun p hp => hps p (hperm.mem_iff.mpr hp)
      rw [get_low_of_eq_max _ (low_stays_max ps hps), get_low_of_eq_max _ (low_stays_max qs hqs)]
  · exact @List.perm_append_comm Dbl (List.map Dbl.fin [1, 2, 3, 4, 5, 6, 7, 8, 9, 10, 11, 12, 13, 14, 15, 16, 17, 18, 19, 20])
      [Dbl.fin 21]
  · rw [state_ascending_21, state_rotated_21]
    simp
  · rw [state_ascending_21, state_rotated_21, average_two_to_21, average_one_to_20]
    norm_num

theorem extrema_ignore_order_witness :
    Fresh initState ∧
    [Dbl.fin 4, Dbl.fin (-1), Dbl.pinf].Perm [Dbl.pinf, Dbl.fin 4, Dbl.fin (-1)] ∧
    get_high (add_prices initState [Dbl.fin 4, Dbl.fin (-1), Dbl.pinf])
      = get_high (add_prices initState [Dbl.pinf, Dbl.fin 4, Dbl.fin (-1)]) ∧
    get_low (add_prices initState [Dbl.fin 4, Dbl.fin (-1), Dbl.pinf])
      = get_low (add_prices initState [Dbl.pinf, Dbl.fin 4, Dbl.fin (-1)]) :=
  have hperm : [Dbl.fin 4, Dbl.fin (-1), Dbl.pinf].Perm [Dbl.pinf, Dbl.fin 4, Dbl.fin (-1)] :=
    @List.perm_append_comm Dbl [Dbl.fin 4, Dbl.fin (-1)] [Dbl.pinf]
  have hmain := extrema_ignore_order initState (Or.inl rfl)
    [Dbl.fin 4, Dbl.fin (-1), Dbl.pinf] [Dbl.pinf, Dbl.fin 4, Dbl.fin (-1)] hperm
  ⟨Or.inl rfl, hperm, hmain.1, hmain.2.1⟩

end PriceProcessor
